import Mathlib

/-!
# Verification of the lambda-calculus evaluator (`src/main.cc`)

Shallow embedding of the interactive untyped-lambda-calculus evaluator:
tokenizer, recursive-descent parser, capture-avoidance machinery
(`occursIn`, `freshName`, `alphaConvert`, `substitute`), the step-wise
reducer (`betaReduceStep`, `isReduced`, `betaReduce`), the `evaluate`
boundary, and the binding store (`processBinding`, `trim`, `interpret`).

Modelling conventions:
* The source's `String` type is a sequence of Unicode codepoints; it is
  modelled as `List Char` (Lean `Char` is one Unicode scalar value).
  `Expr` names are Lean `String`s (the source concatenates codepoints and
  decimal suffixes into names).
* C `isspace` / `isdigit` are modelled on their ASCII domain, which is the
  domain the source feeds them meaningfully.
* Exceptions (`throw std::runtime_error(msg)`) become `Except String`;
  the `try/catch` in `evaluate` becomes handling of the `Except` value.
* The unbounded loops of the source (`betaReduce`'s `while`, `freshName`'s
  search, the parser's mutual recursion) are given explicit fuel.  The fuel
  is chosen so that it provably (or, for `freshName`, by a finite pigeonhole
  bound recorded in the doc comment) never runs out on the inputs the
  program can reach; fuel exhaustion is an extra `none`/error outcome that
  does not occur in the claims below.
-/

/-- ASCII whitespace, the domain on which C `isspace` is defined and the
only characters the source ever feeds it as separators. -/
def isspaceChar (c : Char) : Bool :=
  c = ' ' || c = '\t' || c = '\n' || Char.ofNat 11 = c || Char.ofNat 12 = c || c = '\r'

/-- C `isdigit`: the decimal digits. -/
def isdigitChar (c : Char) : Bool :=
  '0' ≤ c && c ≤ '9'

/-- Tokens of the lexer.  The source represents a token as a
`TokenType` tag plus a one-codepoint payload that is meaningful only for
`VARIABLE`; here the two are merged into one inductive. -/
inductive Token where
  | VARIABLE (value : Char)
  | LAMBDA
  | DOT
  | LPAREN
  | RPAREN
  | END
deriving Repr, DecidableEq

/-- Prepend one token to the result of tokenizing the rest (the
`tokens.emplace_back` steps of `Lexer::tokenize`, with the exception
propagation of `Except`). -/
def consTok (t : Token) : Except String (List Token) → Except String (List Token)
  | Except.ok ts => Except.ok (t :: ts)
  | Except.error e => Except.error e

/-- `Lexer::tokenize` (main.cc lines 23–46): skip whitespace, classify one
codepoint at a time (`λ`, `.`, `(`, `)`, otherwise a one-codepoint
`VARIABLE` unless the codepoint is a decimal digit, which throws), and
append one `END` token at the end. -/
def tokenize : List Char → Except String (List Token)
  | [] => Except.ok [Token.END]
  | c :: rest =>
    if isspaceChar c then tokenize rest
    else if c = 'λ' then consTok Token.LAMBDA (tokenize rest)
    else if c = '.' then consTok Token.DOT (tokenize rest)
    else if c = '(' then consTok Token.LPAREN (tokenize rest)
    else if c = ')' then consTok Token.RPAREN (tokenize rest)
    else if !isspaceChar c && !isdigitChar c then consTok (Token.VARIABLE c) (tokenize rest)
    else Except.error "Unexpected character encountered"

/-- The expression tree: `Variable` / `Abstraction` / `Application`
(main.cc lines 59–94). -/
inductive Expr where
  | Variable (name : String)
  | Abstraction (param : String) (body : Expr)
  | Application (func : Expr) (arg : Expr)
deriving Repr, DecidableEq

/-- The `toString` rendering of the three `Expr` classes
(main.cc lines 70–91): a variable prints as its name, an abstraction as
`λ` + param + `.` + body, an application as `(` + func + ` ` + arg + `)`. -/
def Expr.toString : Expr → String
  | Expr.Variable name => name
  | Expr.Abstraction param body => "λ" ++ param ++ "." ++ Expr.toString body
  | Expr.Application func arg =>
      "(" ++ Expr.toString func ++ " " ++ Expr.toString arg ++ ")"

/-- The parameter-collecting loop of `Parser::parseExpression`
(main.cc lines 123–127): consume a (possibly empty) run of `VARIABLE`
tokens, returning the collected one-codepoint names in order together with
the remaining tokens. -/
def collectParams : List Token → List String × List Token
  | Token.VARIABLE c :: rest =>
    let (ps, r) := collectParams rest
    (String.mk [c] :: ps, r)
  | ts => ([], ts)

/-- Fuel-exhaustion message for the parser model.  The C++ parser has no
such outcome; with the fuel supplied by `parse` below this branch is
unreachable on any `tokenize` output (the fuel bounds proved for claim C10
witness this on the rendered fragment). -/
def fuelMsg : String := "parser fuel exhausted"

mutual

/-- `Parser::parseExpression` (main.cc lines 118–145): on `LAMBDA`, collect
the parameter run, require `DOT`, parse the body, and fold the parameters
right-to-left into nested `Abstraction`s; otherwise delegate to
`parseApplication`.  Each function returns the parsed expression together
with the remaining tokens (the source's `currentPosition` cursor); the
sticky `END` sentinel of `nextToken` means the cursor always advances
exactly one token whenever the source advances, so plain list consumption
is a faithful model on every `END`-terminated token stream. -/
def parseExpression : Nat → List Token → Except String (Expr × List Token)
  | 0, _ => Except.error fuelMsg
  | fuel + 1, ts =>
    match ts with
    | Token.LAMBDA :: rest =>
      let (params, r2) := collectParams rest
      match r2 with
      | Token.DOT :: r3 =>
        match parseExpression fuel r3 with
        | Except.ok (body, r4) =>
            Except.ok (params.foldr (fun p b => Expr.Abstraction p b) body, r4)
        | Except.error e => Except.error e
      | _ => Except.error "Expected '.' after lambda parameters"
    | _ => parseApplication fuel ts

/-- `Parser::parseApplication` (main.cc lines 147–154): parse one term,
then left-fold further terms while the lookahead is `VARIABLE` or
`LPAREN`. -/
def parseApplication : Nat → List Token → Except String (Expr × List Token)
  | 0, _ => Except.error fuelMsg
  | fuel + 1, ts =>
    match parseTerm fuel ts with
    | Except.ok (e, r) => parseApplicationLoop fuel e r
    | Except.error e => Except.error e

/-- The `while` loop of `Parser::parseApplication` (main.cc lines
149–152), with `acc` the left-folded application built so far. -/
def parseApplicationLoop : Nat → Expr → List Token → Except String (Expr × List Token)
  | 0, _, _ => Except.error fuelMsg
  | fuel + 1, acc, ts =>
    match ts with
    | Token.VARIABLE _ :: _ | Token.LPAREN :: _ =>
      match parseTerm fuel ts with
      | Except.ok (e, r) => parseApplicationLoop fuel (Expr.Application acc e) r
      | Except.error e => Except.error e
    | _ => Except.ok (acc, ts)

/-- `Parser::parseTerm` (main.cc lines 156–172): a `VARIABLE` becomes a
`Variable`, `LPAREN` parses an inner expression and requires `RPAREN`,
anything else throws `Unexpected term`. -/
def parseTerm : Nat → List Token → Except String (Expr × List Token)
  | 0, _ => Except.error fuelMsg
  | fuel + 1, ts =>
    match ts with
    | Token.VARIABLE c :: rest => Except.ok (Expr.Variable (String.mk [c]), rest)
    | Token.LPAREN :: rest =>
      match parseExpression fuel rest with
      | Except.ok (e, r) =>
        match r with
        | Token.RPAREN :: r2 => Except.ok (e, r2)
        | _ => Except.error "Expected closing parenthesis"
      | Except.error e => Except.error e
    | _ => Except.error "Unexpected term"

end

/-- `Parser::parse` (main.cc lines 102–104): parse one expression from the
token stream, ignoring any leftover tokens.  The fuel `5 * length + 5` is
proved sufficient for the parser on every rendered tree (claim C10); the
parser's call depth advances past at least one token every five calls. -/
def parse (ts : List Token) : Except String Expr :=
  match parseExpression (5 * ts.length + 5) ts with
  | Except.ok (e, _) => Except.ok e
  | Except.error e => Except.error e

/-- `occursIn` (main.cc lines 177–186): whether `varName` appears anywhere
in `expr`, as a `Variable`'s name or an `Abstraction`'s parameter. -/
def occursIn (varName : String) : Expr → Bool
  | Expr.Variable n => n = varName
  | Expr.Abstraction p body => p = varName || occursIn varName body
  | Expr.Application f a => occursIn varName f || occursIn varName a

/-- Number of nodes of an expression; used only to bound the fuelled
loops of the model (`freshName`, `substitute`). -/
def exprSize : Expr → Nat
  | Expr.Variable _ => 1
  | Expr.Abstraction _ body => exprSize body + 1
  | Expr.Application f a => exprSize f + exprSize a + 1

/-- The candidate-search loop of `freshName` (main.cc lines 192–194):
try `base + toString i` for `i = 0, 1, …` until a candidate does not occur
in `context`.  The fuel bounds the number of candidates tried; the
candidates are pairwise distinct while at most `exprSize context` distinct
names occur in `context`, so with the fuel chosen by `freshName` below the
give-up branch is never reached. -/
def freshNameAux (base : String) (context : Expr) : Nat → Nat → String
  | i, 0 => base ++ Nat.repr i
  | i, fuel + 1 =>
    let cand := base ++ Nat.repr i
    if occursIn cand context then freshNameAux base context (i + 1) fuel else cand

/-- `freshName` (main.cc lines 189–196): return `base` unchanged if it does
not occur in `context`, otherwise append an incrementing decimal suffix
(`base0`, `base1`, …) until the name no longer occurs. -/
def freshName (base : String) (context : Expr) : String :=
  if occursIn base context then freshNameAux base context 0 (exprSize context + 1)
  else base

/-- `alphaConvert` (main.cc lines 199–219): rename every `Variable` named
`oldVar` to `newVar`, also renaming the parameter of an `Abstraction` whose
parameter equals `oldVar` and continuing into its body.  The source's
defensive `UnrecognizedExpression` throw is unreachable in the closed
variant set and so has no counterpart here. -/
def alphaConvert : Expr → String → String → Expr
  | Expr.Variable n, oldVar, newVar =>
    if n = oldVar then Expr.Variable newVar else Expr.Variable n
  | Expr.Abstraction p body, oldVar, newVar =>
    if p = oldVar then Expr.Abstraction newVar (alphaConvert body oldVar newVar)
    else Expr.Abstraction p (alphaConvert body oldVar newVar)
  | Expr.Application f a, oldVar, newVar =>
    Expr.Application (alphaConvert f oldVar newVar) (alphaConvert a oldVar newVar)

/-- The recursion of `substitute` (main.cc lines 222–251), made structural
on a fuel argument because the capture-avoidance case recurses on
`alphaConvert body …`, which is not a subterm.  `alphaConvert` preserves
`exprSize`, and every recursive call strictly decreases `exprSize`, so
`substitute` below supplies fuel that never runs out; the fuel-0 branch
(returning the expression unchanged) is unreachable. -/
def substituteAux : Nat → Expr → String → Expr → Expr
  | 0, expr, _, _ => expr
  | fuel + 1, expr, varName, value =>
    match expr with
    | Expr.Variable n => if n = varName then value else Expr.Variable n
    | Expr.Abstraction p body =>
      if p = varName then Expr.Abstraction p body
      else if occursIn p value then
        let newParamName := freshName p value
        let newBody := alphaConvert body p newParamName
        Expr.Abstraction newParamName (substituteAux fuel newBody varName value)
      else Expr.Abstraction p (substituteAux fuel body varName value)
    | Expr.Application f a =>
      Expr.Application (substituteAux fuel f varName value) (substituteAux fuel a varName value)

/-- `substitute` (main.cc lines 222–251): the capture-avoiding substitution
`expr[varName := value]`.  A `Variable` named `varName` becomes `value`; an
`Abstraction` whose parameter equals `varName` is left unchanged; one whose
parameter occurs anywhere in `value` is renamed via `freshName` /
`alphaConvert` before substituting into the body; an `Application`
substitutes into both sides. -/
def substitute (expr : Expr) (varName : String) (value : Expr) : Expr :=
  substituteAux (exprSize expr) expr varName value

/-- `betaReduceStep` (main.cc lines 254–269): contract every redex whose
function position is literally an `Abstraction`, recursing through
non-redex `Application`s and through `Abstraction` bodies.  The diagnostic
trace write is a console side effect with no bearing on the returned tree
and is dropped. -/
def betaReduceStep : Expr → Expr
  | Expr.Application (Expr.Abstraction p body) arg => substitute body p arg
  | Expr.Application f a => Expr.Application (betaReduceStep f) (betaReduceStep a)
  | Expr.Abstraction p body => Expr.Abstraction p (betaReduceStep body)
  | Expr.Variable n => Expr.Variable n

/-- `isReduced` (main.cc lines 272–282): true iff no `Application` node
anywhere in the tree has an `Abstraction` in its function position. -/
def isReduced : Expr → Bool
  | Expr.Application (Expr.Abstraction _ _) _ => false
  | Expr.Application f a => isReduced f && isReduced a
  | Expr.Abstraction _ body => isReduced body
  | Expr.Variable _ => true

/-- `betaReduce` (main.cc lines 285–291): repeat `betaReduceStep` until
`isReduced` holds.  The source loop is unbounded and diverges on divergent
terms; the model returns `none` when the fuel is exhausted before a normal
form is reached. -/
def betaReduce (fuel : Nat) (e : Expr) : Option Expr :=
  if isReduced e then some e
  else
    match fuel with
    | 0 => none
    | fuel + 1 => betaReduce fuel (betaReduceStep e)

/-- `Result` (main.cc lines 293–296): the textual outcome of `evaluate`. -/
structure Result where
  value : String
  isOk : Bool
deriving Repr, DecidableEq

/-- `evaluate` (main.cc lines 299–309): tokenize, parse, beta-reduce and
render, catching every thrown error and converting it into an
`ok = false` result whose text is prefixed with `Error: `.  `none` models
the one uncaught behaviour, non-termination of `betaReduce` (the fuel
running out). -/
def evaluate (fuel : Nat) (input : String) : Option Result :=
  match tokenize input.data with
  | Except.error e => some ⟨"Error: " ++ e, false⟩
  | Except.ok ts =>
    match parse ts with
    | Except.error e => some ⟨"Error: " ++ e, false⟩
    | Except.ok expression =>
      match betaReduce fuel expression with
      | none => none
      | some reducedExpression => some ⟨Expr.toString reducedExpression, true⟩

/-- `BindingEntry` (main.cc lines 311–314): a binding name together with
the raw right-hand-side source text. -/
structure BindingEntry where
  name : String
  expr : String
deriving Repr, DecidableEq

/-- `InputType` (main.cc lines 318–322). -/
inductive InputType where
  | Expression
  | Binding
  | InvalidBinding
  | Assertion
  | InvalidAssertion
deriving Repr, DecidableEq

/-- `trim` (main.cc lines 324–334): erase leading and trailing whitespace,
then replace every remaining space with `-`. -/
def trim (s : List Char) : List Char :=
  let s1 := s.dropWhile (fun c => isspaceChar c)
  let s2 := (s1.reverse.dropWhile (fun c => isspaceChar c)).reverse
  s2.map (fun c => if c = ' ' then '-' else c)

/-- `processBinding` (main.cc lines 336–350), with the global
`globalMapping` made an explicit argument and result.  The source first
takes `input.substr(input.find_first_not_of(' '))`; when the line contains
nothing but spaces, `find_first_not_of` returns `npos` and `substr` throws
`std::out_of_range`, which no caller catches — modelled as `none`.
Otherwise: a line not starting with `let ` is an `Expression`; a `let `
line with no `=` after position 4 is an `InvalidBinding`; otherwise the
trimmed name and the raw text after the `=` are appended to the store. -/
def processBinding (input : List Char) (store : List BindingEntry) :
    Option (InputType × List BindingEntry) :=
  if input.all (fun c => c = ' ') then none
  else
    let trimmedInput := input.dropWhile (fun c => c = ' ')
    if trimmedInput.take 4 ≠ "let ".data then some (InputType.Expression, store)
    else
      let afterLet := trimmedInput.drop 4
      match afterLet.findIdx? (fun c => c = '=') with
      | none => some (InputType.InvalidBinding, store)
      | some i =>
        let word := String.mk (trim (afterLet.take i))
        let expression := String.mk (afterLet.drop (i + 1))
        some (InputType.Binding, store ++ [⟨word, expression⟩])

/-- `interpret` (main.cc lines 353–369), with the global binding store made
an explicit argument and result.  `none` models the behaviours with no
defined result: the uncaught `std::out_of_range` from `processBinding` on
an all-space line, a diverging `evaluate`, and the `Expression` branch —
whose source (line 365) reads `entry.expr` although `entry` is declared
only inside the `Binding` branch, so the translation unit is ill-formed
and that branch has no defined behaviour to model.  On a `Binding`, the
just-appended entry's right-hand side is evaluated; on failure the entry
is popped again and the error text returned, on success the rendered
result is prefixed with the bound name. -/
def interpret (fuel : Nat) (input : String) (store : List BindingEntry) :
    Option (String × List BindingEntry) :=
  match processBinding input.data store with
  | none => none
  | some (InputType.Binding, store') =>
    match store'.getLast? with
    | none => none
    | some entry =>
      match evaluate fuel entry.expr with
      | none => none
      | some result =>
        if result.isOk then some ("<" ++ entry.name ++ "> " ++ result.value, store')
        else some (result.value, store'.dropLast)
  | some (InputType.Expression, _) => none
  | some (_, store') => some ("Invalid Syntax", store')


/-- Tokenize-then-parse front half of `evaluate`, used to state claims
about what a given input line parses to. -/
def parseInput (s : String) : Except String Expr :=
  match tokenize s.data with
  | Except.ok ts => parse ts
  | Except.error e => Except.error e

/-- Free occurrence of a variable name, formalizing the spec's notion of a
free variable (the source has no such function; it is needed only to state
the capture-avoidance claim). -/
def freeIn (v : String) : Expr → Bool
  | Expr.Variable n => n = v
  | Expr.Abstraction p body => if p = v then false else freeIn v body
  | Expr.Application f a => freeIn v f || freeIn v a

/-- A codepoint the lexer classifies as a `VARIABLE`: not whitespace, not a
digit, and none of the four reserved glyphs. -/
def goodChar (c : Char) : Bool :=
  !isspaceChar c && !isdigitChar c && !(c = 'λ') && !(c = '.') && !(c = '(') && !(c = ')')

/-- A name consisting of exactly one `VARIABLE`-classified codepoint —
the shape of every name the parser can produce. -/
def isOneGoodChar (n : String) : Bool :=
  match n.data with
  | [c] => goodChar c
  | _ => false

/-- Token classification of one non-whitespace codepoint; used to state
the tokenizer's input/output relation (claim C8). -/
def tokOf (c : Char) : Token :=
  if c = 'λ' then Token.LAMBDA
  else if c = '.' then Token.DOT
  else if c = '(' then Token.LPAREN
  else if c = ')' then Token.RPAREN
  else Token.VARIABLE c

/-- Tokens on which the application loop of the parser continues
(`VARIABLE` or `LPAREN`, main.cc line 149). -/
def isTermStart : Token → Bool
  | Token.VARIABLE _ => true
  | Token.LPAREN => true
  | _ => false

/-- Every `VARIABLE` token in the list carries a `VARIABLE`-classified
codepoint — true of every `tokenize` output. -/
def tokensWF (ts : List Token) : Bool :=
  ts.all fun t =>
    match t with
    | Token.VARIABLE c => goodChar c
    | _ => true

/-- Every name in the tree is a single `VARIABLE`-classified codepoint —
true of every parser output. -/
def wfNames : Expr → Bool
  | Expr.Variable n => isOneGoodChar n
  | Expr.Abstraction p body => isOneGoodChar p && wfNames body
  | Expr.Application f a => wfNames f && wfNames a

/-- Whether the root node is an `Abstraction`. -/
def isAbstraction : Expr → Bool
  | Expr.Abstraction _ _ => true
  | _ => false

/-- No `Abstraction` is the direct child (function or argument position)
of an `Application` anywhere in the tree: the fragment of the expression
language on which the rendering of claim C10 is faithfully re-parsable. -/
def noLambdaUnderApp : Expr → Bool
  | Expr.Variable _ => true
  | Expr.Abstraction _ body => noLambdaUnderApp body
  | Expr.Application f a =>
      !isAbstraction f && !isAbstraction a && noLambdaUnderApp f && noLambdaUnderApp a

/-- The codepoints of the rendering `Expr.toString`, at the `List Char`
level. -/
def charsOf : Expr → List Char
  | Expr.Variable n => n.data
  | Expr.Abstraction p body => 'λ' :: (p.data ++ ('.' :: charsOf body))
  | Expr.Application f a => '(' :: (charsOf f ++ (' ' :: (charsOf a ++ [')'])))

/-- The token sequence (without the trailing `END`) that tokenizing a
rendered tree produces. -/
def toksOf : Expr → List Token
  | Expr.Variable n => n.data.map fun c => Token.VARIABLE c
  | Expr.Abstraction p body =>
      Token.LAMBDA :: ((p.data.map fun c => Token.VARIABLE c) ++ (Token.DOT :: toksOf body))
  | Expr.Application f a => Token.LPAREN :: (toksOf f ++ (toksOf a ++ [Token.RPAREN]))

/-- Prepend a token list to the result of a tokenization. -/
def consAllToks (ts : List Token) : Except String (List Token) → Except String (List Token)
  | Except.ok l => Except.ok (ts ++ l)
  | Except.error e => Except.error e

theorem string_ext (a b : String) (h : a.data = b.data) : a = b := by
  cases a; cases b; congr

/-- A `VARIABLE`-classified codepoint tokenizes to exactly one `VARIABLE`
token. -/
theorem tokenize_single_good (c : Char) (h : goodChar c = true) :
    tokenize [c] = Except.ok [Token.VARIABLE c, Token.END] := by
  simp only [goodChar, Bool.and_eq_true, Bool.not_eq_true',
    decide_eq_false_iff_not] at h
  obtain ⟨⟨⟨⟨⟨hsp, hdig⟩, hl⟩, hd⟩, hlp⟩, hrp⟩ := h
  simp [tokenize, hsp, hdig, hl, hd, hlp, hrp, consTok]

/-- A single `VARIABLE` token parses to the corresponding `Variable`. -/
theorem parse_single_var (c : Char) :
    parse [Token.VARIABLE c, Token.END] = Except.ok (Expr.Variable (String.mk [c])) := rfl

/-- A term that is already in normal form is returned unchanged by the
reduction loop, whatever the fuel: the `while` condition fails at once. -/
theorem betaReduce_of_isReduced (fuel : Nat) (e : Expr) (h : isReduced e = true) :
    betaReduce fuel e = some e := by
  cases fuel <;> simp [betaReduce, h]

/-- A line consisting of one `VARIABLE`-classified codepoint evaluates to
that variable itself, for any reduction fuel: `evaluate` takes only the
source text, so nothing in the binding store can influence the result. -/
theorem evaluate_single_var (fuel : Nat) (c : Char) (h : goodChar c = true) :
    evaluate fuel (String.mk [c]) = some ⟨String.mk [c], true⟩ := by
  have hd : (String.mk [c]).data = [c] := rfl
  simp [evaluate, hd, tokenize_single_good c h, parse_single_var,
    betaReduce_of_isReduced fuel (Expr.Variable (String.mk [c])) rfl, Expr.toString]

/-- C1: `substitute` is claimed never to let a variable occurring free in
an abstraction's body become bound by the parameter chosen during capture
avoidance.  The code violates this: `freshName` checks the candidate only
against `value`, never against the body, so substituting `x` for `y` in
`λx.(y x0)` renames the binder to `x0` — a name that occurs free in the
body — and the formerly free `x0` is captured.  The conjuncts evaluate the
code at the failing input and record that `x0` is free in the input but no
longer free in the output. -/
theorem C1_substitute_captures_free_body_variable :
    substitute (Expr.Abstraction "x" (Expr.Application (Expr.Variable "y") (Expr.Variable "x0")))
        "y" (Expr.Variable "x")
      = Expr.Abstraction "x0" (Expr.Application (Expr.Variable "x") (Expr.Variable "x0"))
    ∧ freeIn "x0"
        (Expr.Abstraction "x" (Expr.Application (Expr.Variable "y") (Expr.Variable "x0"))) = true
    ∧ freeIn "x0"
        (Expr.Abstraction "x0" (Expr.Application (Expr.Variable "x") (Expr.Variable "x0"))) = false
    ∧ ("x0" : String) ≠ "y" :=
  ⟨rfl, rfl, rfl, by decide⟩

/-- C2: a line consisting only of space characters is claimed to be
handled like any other failure, caught and converted to an `Error: `
result.  Instead `processBinding` computes
`input.substr(input.find_first_not_of(' '))`, `find_first_not_of` returns
`npos`, and `substr` throws `std::out_of_range` outside every `try` block:
the session aborts (modelled as `none`), for every store and fuel. -/
theorem C2_space_only_line_aborts :
    ∀ (fuel : Nat) (store : List BindingEntry),
      processBinding "   ".data store = none ∧ interpret fuel "   " store = none :=
  fun _ _ => ⟨rfl, rfl⟩

/-- C3: a non-`let` line is claimed to be evaluated as a plain expression
via `evaluate` on the same line's text.  In the source's `Expression`
branch (main.cc line 365) the evaluated text is `entry.expr`, but `entry`
is declared only inside the `Binding` branch: the translation unit is
ill-formed and the branch has no defined behaviour (modelled as `none`),
shown here at the plain-expression line `a`. -/
theorem C3_expression_branch_has_no_defined_result :
    ∀ (fuel : Nat) (store : List BindingEntry), interpret fuel "a" store = none :=
  fun _ _ => rfl

/-- C9: if `isReduced e` holds then `betaReduce` returns `e` structurally
unchanged: the reduction loop tests `isReduced` before every step, so it
performs zero steps, for every fuel. -/
theorem C9_betaReduce_fixes_normal_forms (fuel : Nat) (e : Expr)
    (h : isReduced e = true) : betaReduce fuel e = some e := by
  cases fuel <;> simp [betaReduce, h]

/-- Witness for C9 at the normal form `v` with zero fuel. -/
theorem C9_witness :
    isReduced (Expr.Variable "v") = true
    ∧ betaReduce 0 (Expr.Variable "v") = some (Expr.Variable "v") :=
  ⟨rfl, C9_betaReduce_fixes_normal_forms 0 (Expr.Variable "v") rfl⟩

/-- C4 counterexample: after the successful binding `let i = λx.x` the
claim wants every subsequent evaluation to resolve the free variable `i`
to the bound value; but the later `evaluate` call on the line `i` returns
the variable `i` itself, not `λx.x` — `evaluate` reads no store. -/
theorem C4_counterexample :
    interpret 9 "let i = λx.x" [] = some ("<i> λx.x", [⟨"i", " λx.x"⟩])
    ∧ evaluate 9 "i" = some ⟨"i", true⟩
    ∧ ("i" : String) ≠ "λx.x" :=
  ⟨rfl, rfl, by decide⟩

/-- C4 amended: the binding store of the reference behaviour is
write-only.  `evaluate` consumes only the source text, so a subsequent
line consisting of a bound name (any `VARIABLE`-classified codepoint)
evaluates to the bare variable itself — never to the value bound to that
name — regardless of the reduction fuel and hence of anything `interpret`
appended to the store earlier in the session. -/
theorem C4_store_never_consulted (fuel : Nat) (c : Char) (h : goodChar c = true) :
    evaluate fuel (String.mk [c]) = some ⟨String.mk [c], true⟩ :=
  evaluate_single_var fuel c h

/-- Witness for the amended C4 at the bound name `i`. -/
theorem C4_witness :
    goodChar 'i' = true ∧ evaluate 9 (String.mk ['i']) = some ⟨String.mk ['i'], true⟩ :=
  ⟨by decide, C4_store_never_consulted 9 'i' (by decide)⟩

/-- C6: reducing `(λy.(λx.y)) x` does not capture the outer free `x`: the
input parses to the expected redex, one reduction step renames the inner
binder to the fresh `x0`, and the final result is `λx0.x` — an abstraction
whose body is the outer free `x`, and not `λx.x`. -/
theorem C6_capture_avoided_on_example :
    parseInput "(λy.(λx.y)) x"
      = Except.ok (Expr.Application
          (Expr.Abstraction "y" (Expr.Abstraction "x" (Expr.Variable "y")))
          (Expr.Variable "x"))
    ∧ betaReduce 9 (Expr.Application
          (Expr.Abstraction "y" (Expr.Abstraction "x" (Expr.Variable "y")))
          (Expr.Variable "x"))
        = some (Expr.Abstraction "x0" (Expr.Variable "x"))
    ∧ Expr.Abstraction "x0" (Expr.Variable "x") ≠ Expr.Abstraction "x" (Expr.Variable "x")
    ∧ evaluate 9 "(λy.(λx.y)) x" = some ⟨"λx0.x", true⟩ :=
  ⟨rfl, rfl, by decide, rfl⟩

/-- After `LAMBDA`, once the (possibly empty) parameter run stops at a
token that is not `DOT`, the parser fails with the missing-dot message. -/
theorem parseExpression_missing_dot (fuel : Nat) (ts : List Token) (t : Token)
    (h1 : (collectParams ts).2.head? = some t) (h2 : t ≠ Token.DOT) :
    parseExpression (fuel + 1) (Token.LAMBDA :: ts) =
      Except.error "Expected '.' after lambda parameters" := by
  rcases hcp : collectParams ts with ⟨ps, r2⟩
  rw [hcp] at h1
  simp only [parseExpression, hcp]
  cases r2 with
  | nil => simp at h1
  | cons t2 r3 =>
    simp only [List.head?] at h1
    cases h1
    cases t <;> simp_all

/-- C5 counterexample: zero parameters before `DOT` is claimed to be
rejected, but the parameter-collecting loop happily collects an empty run:
`λ.x` is accepted, collapsing to its body `x`, both at the parser level
and through `evaluate`. -/
theorem C5_counterexample_zero_params_accepted :
    parseInput "λ.x" = Except.ok (Expr.Variable "x")
    ∧ evaluate 9 "λ.x" = some ⟨"x", true⟩ :=
  ⟨rfl, rfl⟩

/-- C5 amended: after `LAMBDA` the parser consumes a possibly-empty run of
`VARIABLE` tokens as parameters (zero parameters is accepted, the fold
then returning the body unchanged) and requires `DOT` next, failing with
`Expected '.' after lambda parameters` whenever the run stops at any other
token; in particular `λx x` yields exactly that error through `evaluate`,
while `λ.x` is accepted and evaluates to `x`. -/
theorem C5_dot_required_after_params (fuel : Nat) (ts : List Token) (t : Token)
    (h1 : (collectParams ts).2.head? = some t) (h2 : t ≠ Token.DOT) :
    parseExpression (fuel + 1) (Token.LAMBDA :: ts) =
      Except.error "Expected '.' after lambda parameters"
    ∧ evaluate 9 "λx x" = some ⟨"Error: Expected '.' after lambda parameters", false⟩
    ∧ evaluate 9 "λ.x" = some ⟨"x", true⟩ :=
  ⟨parseExpression_missing_dot fuel ts t h1 h2, rfl, rfl⟩

/-- Witness for the amended C5 on the token stream of `λx x`. -/
theorem C5_witness :
    parseExpression 1
        (Token.LAMBDA :: [Token.VARIABLE 'x', Token.VARIABLE 'x', Token.END]) =
      Except.error "Expected '.' after lambda parameters"
    ∧ evaluate 9 "λx x" = some ⟨"Error: Expected '.' after lambda parameters", false⟩
    ∧ evaluate 9 "λ.x" = some ⟨"x", true⟩ :=
  C5_dot_required_after_params 0 [Token.VARIABLE 'x', Token.VARIABLE 'x', Token.END]
    Token.END rfl (by decide)

/-- A `Binding` classification always appends exactly one entry to the
store. -/
theorem processBinding_binding_append (input : List Char) (store st' : List BindingEntry)
    (h : processBinding input store = some (InputType.Binding, st')) :
    ∃ entry, st' = store ++ [entry] := by
  unfold processBinding at h
  split at h
  · exact absurd h (by simp)
  · dsimp only at h
    split at h
    · simp at h
    · split at h
      · simp at h
      · simp only [Option.some.injEq, Prod.mk.injEq] at h
        exact ⟨_, h.2.symm⟩

/-- C7: on a `let` line, the entry appended by `processBinding` is rolled
back whenever evaluating the right-hand side fails, leaving the store
exactly as it was before the line, with the error text surfaced; on
success the entry remains and the rendered result is prefixed with the
bound name. -/
theorem C7_binding_rollback (fuel : Nat) (input : String) (store : List BindingEntry)
    (entry : BindingEntry) (r : Result)
    (h1 : processBinding input.data store = some (InputType.Binding, store ++ [entry]))
    (h2 : evaluate fuel entry.expr = some r) :
    interpret fuel input store =
      if r.isOk then some ("<" ++ entry.name ++ "> " ++ r.value, store ++ [entry])
      else some (r.value, store) := by
  unfold interpret
  rw [h1]
  dsimp only
  rw [List.getLast?_concat]
  dsimp only
  rw [h2]
  cases hok : r.isOk <;> simp [hok, List.dropLast_concat]

/-- Witness for C7: the failing binding `let bad = λx x` leaves the empty
store empty and surfaces the parser error; the succeeding binding
`let i = λx.x` keeps its entry and prefixes the result with `<i>`. -/
theorem C7_witness :
    interpret 9 "let bad = λx x" [] =
      some ("Error: Expected '.' after lambda parameters", [])
    ∧ interpret 9 "let i = λx.x" [] = some ("<i> λx.x", [⟨"i", " λx.x"⟩]) := by
  constructor
  · have h := C7_binding_rollback 9 "let bad = λx x" [] ⟨"bad", " λx x"⟩
      ⟨"Error: Expected '.' after lambda parameters", false⟩ rfl rfl
    simpa using h
  · have h := C7_binding_rollback 9 "let i = λx.x" [] ⟨"i", " λx.x"⟩
      ⟨"λx.x", true⟩ rfl rfl
    simpa using h

theorem isspace_not_digit (c : Char) (h : isspaceChar c = true) : isdigitChar c = false := by
  simp only [isspaceChar, Bool.or_eq_true, decide_eq_true_eq] at h
  rcases h with ((((h | h) | h) | h) | h) | h
  · subst h; decide
  · subst h; decide
  · subst h; decide
  · rw [← h]; decide
  · rw [← h]; decide
  · subst h; decide

theorem consTok_ok (t : Token) (l : List Token) :
    consTok t (Except.ok l) = Except.ok (t :: l) := rfl

theorem consTok_error (t : Token) (e : String) :
    consTok t (Except.error e) = Except.error e := rfl

/-- Full input/output relation of the tokenizer: it fails (with the
`Unexpected character encountered` message) exactly when the input
contains a decimal digit, and otherwise produces, in order, one token per
non-whitespace codepoint — `λ`, `.`, `(`, `)` giving their reserved
tokens and every other codepoint a one-codepoint `VARIABLE` — followed by
one `END`. -/
theorem tokenize_eq (s : List Char) :
    tokenize s =
      if s.any (fun c => isdigitChar c) then Except.error "Unexpected character encountered"
      else Except.ok (((s.filter fun c => !isspaceChar c).map tokOf) ++ [Token.END]) := by
  induction s with
  | nil => rfl
  | cons c rest ih =>
    by_cases hsp : isspaceChar c = true
    · have hdig : isdigitChar c = false := isspace_not_digit c hsp
      simp [tokenize, hsp, hdig, ih]
    · replace hsp : isspaceChar c = false := by simpa using hsp
      by_cases hdig : isdigitChar c = true
      · have hl : ¬(c = 'λ') := by rintro rfl; simp [isdigitChar] at hdig
        have hd : ¬(c = '.') := by rintro rfl; simp [isdigitChar] at hdig
        have hlp : ¬(c = '(') := by rintro rfl; simp [isdigitChar] at hdig
        have hrp : ¬(c = ')') := by rintro rfl; simp [isdigitChar] at hdig
        simp [tokenize, hsp, hdig, hl, hd, hlp, hrp]
      · replace hdig : isdigitChar c = false := by simpa using hdig
        by_cases hl : c = 'λ'
        · subst hl
          simp [tokenize, ih, tokOf, hsp, hdig, apply_ite (consTok Token.LAMBDA),
            consTok_ok, consTok_error]
        · by_cases hd : c = '.'
          · subst hd
            simp [tokenize, ih, tokOf, hsp, hdig, hl, apply_ite (consTok Token.DOT),
              consTok_ok, consTok_error]
          · by_cases hlp : c = '('
            · subst hlp
              simp [tokenize, ih, tokOf, hsp, hdig, hl, hd,
                apply_ite (consTok Token.LPAREN), consTok_ok, consTok_error]
            · by_cases hrp : c = ')'
              · subst hrp
                simp [tokenize, ih, tokOf, hsp, hdig, hl, hd, hlp,
                  apply_ite (consTok Token.RPAREN), consTok_ok, consTok_error]
              · simp [tokenize, ih, tokOf, hsp, hdig, hl, hd, hlp, hrp,
                  apply_ite (consTok (Token.VARIABLE c)), consTok_ok, consTok_error]

/-- C8: the tokenizer rejects an input if and only if it contains a
decimal digit (always with the `Unexpected character encountered`
message), and on every other input it skips whitespace and turns each
remaining codepoint into its token — `λ`, `.`, `(`, `)` giving their
reserved tokens and every other codepoint exactly one one-codepoint
`VARIABLE` — followed by the final `END`. -/
theorem C8_digit_is_only_rejection (s : List Char) :
    tokenize s =
      (if s.any (fun c => isdigitChar c) then Except.error "Unexpected character encountered"
       else Except.ok (((s.filter fun c => !isspaceChar c).map tokOf) ++ [Token.END]))
    ∧ ((∃ e, tokenize s = Except.error e) ↔ ∃ c ∈ s, isdigitChar c = true) := by
  refine ⟨tokenize_eq s, ?_⟩
  rw [tokenize_eq s]
  by_cases h : s.any (fun c => isdigitChar c) = true
  · simp only [h, if_pos]
    simp only [List.any_eq_true] at h
    exact ⟨fun _ => h, fun _ => ⟨_, rfl⟩⟩
  · rw [if_neg h]
    constructor
    · rintro ⟨e, he⟩; cases he
    · rintro ⟨c, hc, hcd⟩
      exact absurd (List.any_eq_true.mpr ⟨c, hc, hcd⟩) h

theorem isOneGoodChar_iff (n : String) :
    isOneGoodChar n = true ↔ ∃ c, n.data = [c] ∧ goodChar c = true := by
  unfold isOneGoodChar
  rcases hn : n.data with _ | ⟨c, _ | ⟨c2, l⟩⟩ <;> simp

theorem tokenize_space_cons (rest : List Char) : tokenize (' ' :: rest) = tokenize rest := rfl

theorem tokenize_lambda_cons (rest : List Char) :
    tokenize ('λ' :: rest) = consTok Token.LAMBDA (tokenize rest) := rfl

theorem tokenize_dot_cons (rest : List Char) :
    tokenize ('.' :: rest) = consTok Token.DOT (tokenize rest) := rfl

theorem tokenize_lparen_cons (rest : List Char) :
    tokenize ('(' :: rest) = consTok Token.LPAREN (tokenize rest) := rfl

theorem tokenize_rparen_cons (rest : List Char) :
    tokenize (')' :: rest) = consTok Token.RPAREN (tokenize rest) := rfl

theorem tokenize_good_cons (c : Char) (rest : List Char) (h : goodChar c = true) :
    tokenize (c :: rest) = consTok (Token.VARIABLE c) (tokenize rest) := by
  simp only [goodChar, Bool.and_eq_true, Bool.not_eq_true',
    decide_eq_false_iff_not] at h
  obtain ⟨⟨⟨⟨⟨hsp, hdig⟩, hl⟩, hd⟩, hlp⟩, hrp⟩ := h
  simp [tokenize, hsp, hdig, hl, hd, hlp, hrp]

theorem consTok_eq_consAll (t : Token) (r : Except String (List Token)) :
    consTok t r = consAllToks [t] r := by
  cases r <;> rfl

theorem consTok_consAllToks (t : Token) (ts : List Token) (r : Except String (List Token)) :
    consTok t (consAllToks ts r) = consAllToks (t :: ts) r := by
  cases r <;> rfl

theorem consAllToks_consAllToks (a b : List Token) (r : Except String (List Token)) :
    consAllToks a (consAllToks b r) = consAllToks (a ++ b) r := by
  cases r <;> simp [consAllToks]

theorem data_toString (e : Expr) : (Expr.toString e).data = charsOf e := by
  induction e with
  | Variable n => rfl
  | Abstraction p b ih =>
    simp [Expr.toString, charsOf, String.data_append, ih]
  | Application f a ihf iha =>
    simp [Expr.toString, charsOf, String.data_append, ihf, iha]

/-- Tokenizing a rendered tree (with any continuation) produces the tree's
token sequence followed by the tokens of the continuation, whenever every
name in the tree is a single `VARIABLE`-classified codepoint. -/
theorem tokenize_charsOf (e : Expr) :
    wfNames e = true →
    ∀ rest, tokenize (charsOf e ++ rest) = consAllToks (toksOf e) (tokenize rest) := by
  induction e with
  | Variable n =>
    intro h rest
    simp only [wfNames] at h
    obtain ⟨c, hn, hc⟩ := (isOneGoodChar_iff n).mp h
    simp [charsOf, toksOf, hn, tokenize_good_cons c rest hc, consTok_eq_consAll]
  | Abstraction p b ih =>
    intro h rest
    simp only [wfNames, Bool.and_eq_true] at h
    obtain ⟨hp, hb⟩ := h
    obtain ⟨c, hn, hc⟩ := (isOneGoodChar_iff p).mp hp
    have hch : charsOf (Expr.Abstraction p b) ++ rest
        = 'λ' :: c :: '.' :: (charsOf b ++ rest) := by
      simp [charsOf, hn]
    rw [hch, tokenize_lambda_cons, tokenize_good_cons c _ hc, tokenize_dot_cons, ih hb rest]
    simp [toksOf, hn, consTok_consAllToks]
  | Application f a ihf iha =>
    intro h rest
    simp only [wfNames, Bool.and_eq_true] at h
    obtain ⟨hf, ha⟩ := h
    have hch : charsOf (Expr.Application f a) ++ rest
        = '(' :: (charsOf f ++ (' ' :: (charsOf a ++ (')' :: rest)))) := by
      simp [charsOf]
    rw [hch, tokenize_lparen_cons, ihf hf, tokenize_space_cons, iha ha,
      tokenize_rparen_cons]
    simp [toksOf, consTok_eq_consAll, consAllToks_consAllToks]

theorem size_pos (e : Expr) : 1 ≤ exprSize e := by
  cases e <;> simp [exprSize]

theorem termStart_ne_lambda (t : Token) (h : isTermStart t = true) : t ≠ Token.LAMBDA := by
  cases t <;> simp_all [isTermStart]

/-- The first token of a rendered non-abstraction is a `VARIABLE` or an
`LPAREN`. -/
theorem toksOf_termStart (e : Expr) (hwf : wfNames e = true) (habs : isAbstraction e = false) :
    ∃ t r, toksOf e = t :: r ∧ isTermStart t = true := by
  cases e with
  | Variable n =>
    obtain ⟨c, hn, _⟩ := (isOneGoodChar_iff n).mp (by simpa [wfNames] using hwf)
    exact ⟨Token.VARIABLE c, [], by simp [toksOf, hn], rfl⟩
  | Abstraction p b => simp [isAbstraction] at habs
  | Application f a =>
    exact ⟨Token.LPAREN, toksOf f ++ (toksOf a ++ [Token.RPAREN]), rfl, rfl⟩

theorem parseExpression_not_lambda (fuel : Nat) (t : Token) (ts : List Token)
    (h : t ≠ Token.LAMBDA) :
    parseExpression (fuel + 1) (t :: ts) = parseApplication fuel (t :: ts) := by
  cases t <;> simp_all [parseExpression]

theorem parseApplicationLoop_stop (fuel : Nat) (acc : Expr) (t : Token) (ts : List Token)
    (h : isTermStart t = false) :
    parseApplicationLoop (fuel + 1) acc (t :: ts) = Except.ok (acc, t :: ts) := by
  cases t <;> simp_all [isTermStart, parseApplicationLoop]

theorem parseApplicationLoop_nil (fuel : Nat) (acc : Expr) :
    parseApplicationLoop (fuel + 1) acc [] = Except.ok (acc, []) := by
  simp [parseApplicationLoop]

theorem parseApplicationLoop_go (fuel : Nat) (acc : Expr) (t : Token) (ts : List Token)
    (h : isTermStart t = true) :
    parseApplicationLoop (fuel + 1) acc (t :: ts) =
      match parseTerm fuel (t :: ts) with
      | Except.ok (e, r) => parseApplicationLoop fuel (Expr.Application acc e) r
      | Except.error e => Except.error e := by
  cases t <;> simp_all [isTermStart, parseApplicationLoop]

/-- A rendered non-abstraction on the `noLambdaUnderApp` fragment is
parsed back by `parseTerm`, consuming exactly its own tokens, for every
continuation and every sufficient fuel. -/
theorem parseTerm_toksOf (e : Expr) :
    wfNames e = true → noLambdaUnderApp e = true → isAbstraction e = false →
    ∀ (rest : List Token) (fuel : Nat), 5 * exprSize e ≤ fuel →
      parseTerm fuel (toksOf e ++ rest) = Except.ok (e, rest) := by
  induction e with
  | Variable n =>
    intro hwf _ _ rest fuel hfuel
    obtain ⟨c, hn, hc⟩ := (isOneGoodChar_iff n).mp (by simpa [wfNames] using hwf)
    obtain ⟨k, rfl⟩ : ∃ k, fuel = k + 1 := ⟨fuel - 1, by simp [exprSize] at hfuel; omega⟩
    have hto : toksOf (Expr.Variable n) = [Token.VARIABLE c] := by simp [toksOf, hn]
    rw [hto]
    simp only [List.cons_append, List.nil_append, parseTerm]
    have hmk : String.mk [c] = n := by cases n; cases hn; rfl
    rw [hmk]
  | Abstraction p b ih =>
    intro _ _ habs
    simp [isAbstraction] at habs
  | Application f a ihf iha =>
    intro hwf hnl _ rest fuel hfuel
    simp only [wfNames, Bool.and_eq_true] at hwf
    obtain ⟨hwff, hwfa⟩ := hwf
    simp only [noLambdaUnderApp, Bool.and_eq_true, Bool.not_eq_true'] at hnl
    obtain ⟨⟨⟨habsf, habsa⟩, hnlf⟩, hnla⟩ := hnl
    have hszf := size_pos f
    have hsza := size_pos a
    simp only [exprSize] at hfuel
    obtain ⟨k, rfl⟩ : ∃ k, fuel = k + 1 + 1 + 1 + 1 + 1 := ⟨fuel - 5, by omega⟩
    have hts : toksOf (Expr.Application f a) ++ rest
        = Token.LPAREN :: (toksOf f ++ (toksOf a ++ (Token.RPAREN :: rest))) := by
      simp [toksOf]
    rw [hts]
    simp only [parseTerm]
    obtain ⟨t1, r1, htoksf, hts1⟩ := toksOf_termStart f hwff habsf
    have hconsf : toksOf f ++ (toksOf a ++ (Token.RPAREN :: rest))
        = t1 :: (r1 ++ (toksOf a ++ (Token.RPAREN :: rest))) := by
      rw [htoksf]; rfl
    rw [hconsf, parseExpression_not_lambda _ _ _ (termStart_ne_lambda t1 hts1), ← hconsf]
    simp only [parseApplication]
    rw [ihf hwff hnlf habsf (toksOf a ++ (Token.RPAREN :: rest)) (k + 1 + 1) (by omega)]
    dsimp only
    obtain ⟨t2, r2, htoksa, hts2⟩ := toksOf_termStart a hwfa habsa
    have hconsa : toksOf a ++ (Token.RPAREN :: rest)
        = t2 :: (r2 ++ (Token.RPAREN :: rest)) := by
      rw [htoksa]; rfl
    rw [hconsa, parseApplicationLoop_go _ _ _ _ hts2, ← hconsa]
    rw [iha hwfa hnla habsa (Token.RPAREN :: rest) (k + 1) (by omega)]
    dsimp only
    rw [parseApplicationLoop_stop k (Expr.Application f a) Token.RPAREN rest rfl]

/-- A rendered non-abstraction on the fragment is parsed back by
`parseExpression` whenever the continuation does not begin with a
term-start token. -/
theorem parseExpression_toksOf_nonabs (e : Expr) (hwf : wfNames e = true)
    (hnl : noLambdaUnderApp e = true) (habs : isAbstraction e = false)
    (rest : List Token) (hrest : ∀ t r', rest = t :: r' → isTermStart t = false)
    (fuel : Nat) (hfuel : 5 * exprSize e + 2 ≤ fuel) :
    parseExpression fuel (toksOf e ++ rest) = Except.ok (e, rest) := by
  have hsz := size_pos e
  obtain ⟨m, rfl⟩ : ∃ m, fuel = m + 1 + 1 + 1 := ⟨fuel - 3, by omega⟩
  obtain ⟨t1, r1, htoks, hts1⟩ := toksOf_termStart e hwf habs
  have hcons : toksOf e ++ rest = t1 :: (r1 ++ rest) := by rw [htoks]; rfl
  rw [hcons, parseExpression_not_lambda _ _ _ (termStart_ne_lambda t1 hts1), ← hcons]
  simp only [parseApplication]
  rw [parseTerm_toksOf e hwf hnl habs rest (m + 1) (by omega)]
  dsimp only
  cases rest with
  | nil => exact parseApplicationLoop_nil m e
  | cons t r' => exact parseApplicationLoop_stop m e t r' (hrest t r' rfl)

/-- Parser half of the round trip: on the `noLambdaUnderApp` fragment
with well-formed names, `parseExpression` maps the rendered token sequence
followed by a non-term-start continuation back to the original tree. -/
theorem parseExpression_toksOf (e : Expr) :
    wfNames e = true → noLambdaUnderApp e = true →
    ∀ (rest : List Token), (∀ t r', rest = t :: r' → isTermStart t = false) →
    ∀ (fuel : Nat), 5 * exprSize e + 2 ≤ fuel →
      parseExpression fuel (toksOf e ++ rest) = Except.ok (e, rest) := by
  induction e with
  | Variable n =>
    intro hwf hnl rest hrest fuel hfuel
    exact parseExpression_toksOf_nonabs _ hwf hnl rfl rest hrest fuel hfuel
  | Application f a ihf iha =>
    intro hwf hnl rest hrest fuel hfuel
    exact parseExpression_toksOf_nonabs _ hwf hnl rfl rest hrest fuel hfuel
  | Abstraction p b ih =>
    intro hwf hnl rest hrest fuel hfuel
    simp only [wfNames, Bool.and_eq_true] at hwf
    obtain ⟨hp, hb⟩ := hwf
    obtain ⟨c, hn, hc⟩ := (isOneGoodChar_iff p).mp hp
    simp only [noLambdaUnderApp] at hnl
    simp only [exprSize] at hfuel
    obtain ⟨k, rfl⟩ : ∃ k, fuel = k + 1 := ⟨fuel - 1, by omega⟩
    have hts : toksOf (Expr.Abstraction p b) ++ rest
        = Token.LAMBDA :: (Token.VARIABLE c :: (Token.DOT :: (toksOf b ++ rest))) := by
      simp [toksOf, hn]
    rw [hts]
    simp only [parseExpression]
    have hcp : collectParams (Token.VARIABLE c :: (Token.DOT :: (toksOf b ++ rest)))
        = ([String.mk [c]], Token.DOT :: (toksOf b ++ rest)) := by
      simp [collectParams]
    rw [hcp]
    dsimp only
    rw [ih hb hnl rest hrest k (by omega)]
    dsimp only [List.foldr]
    have hmk : String.mk [c] = p := by cases p; cases hn; rfl
    rw [hmk]

/-- Every token produced by a successful tokenization carries a
`VARIABLE`-classified payload. -/
theorem tokensWF_of_tokenize (s : List Char) (ts : List Token)
    (h : tokenize s = Except.ok ts) : tokensWF ts = true := by
  rw [tokenize_eq s] at h
  by_cases hd : s.any (fun c => isdigitChar c) = true
  · rw [if_pos hd] at h; cases h
  · rw [if_neg hd] at h
    injection h with h
    subst h
    rw [tokensWF, List.all_eq_true]
    intro t ht
    rw [List.mem_append] at ht
    rcases ht with ht | ht
    · rw [List.mem_map] at ht
      obtain ⟨c, hc, rfl⟩ := ht
      rw [List.mem_filter] at hc
      obtain ⟨hcs, hcsp⟩ := hc
      have hcd : isdigitChar c = false := by
        by_contra hcc
        exact hd (List.any_eq_true.mpr ⟨c, hcs, by simpa using hcc⟩)
      unfold tokOf
      split_ifs with h1 h2 h3 h4
      · rfl
      · rfl
      · rfl
      · rfl
      · simp [goodChar, hcsp, hcd, h1, h2, h3, h4]
    · rw [List.mem_singleton] at ht
      subst ht
      rfl

/-- The parameter run collected by the parser consists of one-codepoint
well-formed names and leaves a well-formed remainder. -/
theorem collectParams_wf (ts : List Token) (h : tokensWF ts = true) :
    (∀ p ∈ (collectParams ts).1, isOneGoodChar p = true)
    ∧ tokensWF (collectParams ts).2 = true := by
  induction ts with
  | nil => simp [collectParams, tokensWF]
  | cons t rest ih =>
    cases t with
    | VARIABLE c =>
      simp only [tokensWF, List.all_cons, Bool.and_eq_true] at h
      obtain ⟨hc, hrest⟩ := h
      obtain ⟨ih1, ih2⟩ := ih hrest
      rcases hcp : collectParams rest with ⟨ps, r⟩
      rw [hcp] at ih1 ih2
      simp only [collectParams, hcp]
      refine ⟨?_, ih2⟩
      intro p hp
      rcases List.mem_cons.mp hp with hp | hp
      · subst hp
        simpa [isOneGoodChar] using hc
      · exact ih1 p hp
    | LAMBDA => exact ⟨by simp [collectParams], by simpa [collectParams] using h⟩
    | DOT => exact ⟨by simp [collectParams], by simpa [collectParams] using h⟩
    | LPAREN => exact ⟨by simp [collectParams], by simpa [collectParams] using h⟩
    | RPAREN => exact ⟨by simp [collectParams], by simpa [collectParams] using h⟩
    | END => exact ⟨by simp [collectParams], by simpa [collectParams] using h⟩

/-- Folding well-formed parameters over a well-formed body yields a
well-formed tree. -/
theorem foldr_abs_wf (ps : List String) (body : Expr)
    (hps : ∀ p ∈ ps, isOneGoodChar p = true) (hbody : wfNames body = true) :
    wfNames (ps.foldr (fun p b => Expr.Abstraction p b) body) = true := by
  induction ps with
  | nil => simpa
  | cons p ps ih =>
    simp only [List.foldr, wfNames, Bool.and_eq_true]
    exact ⟨hps p (List.mem_cons_self p ps),
      ih fun q hq => hps q (List.mem_cons_of_mem p hq)⟩

/-- Every tree the parser functions return from a well-formed token stream
has well-formed (one-codepoint, `VARIABLE`-classified) names, and the
leftover stream is again well-formed. -/
theorem parser_wf (fuel : Nat) :
    (∀ ts e r, tokensWF ts = true → parseExpression fuel ts = Except.ok (e, r) →
      wfNames e = true ∧ tokensWF r = true)
    ∧ (∀ ts e r, tokensWF ts = true → parseApplication fuel ts = Except.ok (e, r) →
      wfNames e = true ∧ tokensWF r = true)
    ∧ (∀ ts acc e r, tokensWF ts = true → wfNames acc = true →
      parseApplicationLoop fuel acc ts = Except.ok (e, r) →
      wfNames e = true ∧ tokensWF r = true)
    ∧ (∀ ts e r, tokensWF ts = true → parseTerm fuel ts = Except.ok (e, r) →
      wfNames e = true ∧ tokensWF r = true) := by
  induction fuel with
  | zero =>
    refine ⟨fun ts e r _ h => ?_, fun ts e r _ h => ?_, fun ts acc e r _ _ h => ?_,
        fun ts e r _ h => ?_⟩ <;>
      simp [parseExpression, parseApplication, parseApplicationLoop, parseTerm] at h
  | succ fuel ih =>
    obtain ⟨ihE, ihA, ihL, ihT⟩ := ih
    have hT : ∀ ts e r, tokensWF ts = true → parseTerm (fuel + 1) ts = Except.ok (e, r) →
        wfNames e = true ∧ tokensWF r = true := by
      intro ts e r hwf hok
      cases ts with
      | nil => simp [parseTerm] at hok
      | cons t rest =>
        simp only [tokensWF, List.all_cons, Bool.and_eq_true] at hwf
        obtain ⟨ht, hrest⟩ := hwf
        cases t with
        | VARIABLE c =>
          simp only [parseTerm, Except.ok.injEq, Prod.mk.injEq] at hok
          obtain ⟨he, hr⟩ := hok
          subst he; subst hr
          exact ⟨by simpa [wfNames, isOneGoodChar] using ht, hrest⟩
        | LPAREN =>
          simp only [parseTerm] at hok
          rcases hpe : parseExpression fuel rest with pr | err
          · rw [hpe] at hok; cases hok
          · rw [hpe] at hok
            obtain ⟨e1, r1⟩ := err
            obtain ⟨he1, hr1⟩ := ihE rest e1 r1 hrest hpe
            cases r1 with
            | nil => simp at hok
            | cons t2 r2 =>
              cases t2 <;> simp_all
              simp only [tokensWF, List.all_cons, Bool.and_eq_true] at hr1
              exact hr1.2
        | LAMBDA => simp [parseTerm] at hok
        | DOT => simp [parseTerm] at hok
        | RPAREN => simp [parseTerm] at hok
        | END => simp [parseTerm] at hok
    have hL : ∀ ts acc e r, tokensWF ts = true → wfNames acc = true →
        parseApplicationLoop (fuel + 1) acc ts = Except.ok (e, r) →
        wfNames e = true ∧ tokensWF r = true := by
      intro ts acc e r hwf hacc hok
      cases ts with
      | nil =>
        simp only [parseApplicationLoop, Except.ok.injEq, Prod.mk.injEq] at hok
        obtain ⟨he, hr⟩ := hok
        subst he; subst hr
        exact ⟨hacc, by simp [tokensWF]⟩
      | cons t rest =>
        by_cases hts : isTermStart t = true
        · rw [parseApplicationLoop_go fuel acc t rest hts] at hok
          rcases hpt : parseTerm fuel (t :: rest) with pr | err
          · rw [hpt] at hok; cases hok
          · rw [hpt] at hok
            obtain ⟨e1, r1⟩ := err
            obtain ⟨he1, hr1⟩ := ihT (t :: rest) e1 r1 hwf hpt
            dsimp only at hok
            exact ihL r1 (Expr.Application acc e1) e r hr1
              (by simp [wfNames, hacc, he1]) hok
        · rw [parseApplicationLoop_stop fuel acc t rest (by simpa using hts)] at hok
          simp only [Except.ok.injEq, Prod.mk.injEq] at hok
          obtain ⟨he, hr⟩ := hok
          subst he; subst hr
          exact ⟨hacc, hwf⟩
    have hA : ∀ ts e r, tokensWF ts = true → parseApplication (fuel + 1) ts = Except.ok (e, r) →
        wfNames e = true ∧ tokensWF r = true := by
      intro ts e r hwf hok
      simp only [parseApplication] at hok
      rcases hpt : parseTerm fuel ts with pr | err
      · rw [hpt] at hok; cases hok
      · rw [hpt] at hok
        obtain ⟨e1, r1⟩ := err
        obtain ⟨he1, hr1⟩ := ihT ts e1 r1 hwf hpt
        dsimp only at hok
        exact ihL r1 e1 e r hr1 he1 hok
    refine ⟨?_, hA, hL, hT⟩
    intro ts e r hwf hok
    cases ts with
    | nil => exact ihA [] e r hwf hok
    | cons t rest =>
      cases t with
      | LAMBDA =>
        simp only [tokensWF, List.all_cons, Bool.and_eq_true] at hwf
        obtain ⟨_, hrest⟩ := hwf
        simp only [parseExpression] at hok
        rcases hcp : collectParams rest with ⟨ps, r2⟩
        rw [hcp] at hok
        obtain ⟨hps, hr2⟩ := collectParams_wf rest hrest
        rw [hcp] at hps hr2
        cases r2 with
        | nil => simp at hok
        | cons t2 r3 =>
          cases t2 <;> try simp at hok
          case DOT =>
            simp only [tokensWF, List.all_cons, Bool.and_eq_true] at hr2
            obtain ⟨-, hr3⟩ := hr2
            rcases hpe : parseExpression fuel r3 with pr | err
            · rw [hpe] at hok; cases hok
            · rw [hpe] at hok
              obtain ⟨body, r4⟩ := err
              obtain ⟨hbody, hr4⟩ := ihE r3 body r4 hr3 hpe
              dsimp only at hok
              simp only [Except.ok.injEq, Prod.mk.injEq] at hok
              obtain ⟨he, hr⟩ := hok
              subst he; subst hr
              exact ⟨foldr_abs_wf ps body hps hbody, hr4⟩
      | VARIABLE c => exact ihA _ e r hwf hok
      | DOT => exact ihA _ e r hwf hok
      | LPAREN => exact ihA _ e r hwf hok
      | RPAREN => exact ihA _ e r hwf hok
      | END => exact ihA _ e r hwf hok

/-- A well-formed tree has at least as many tokens as nodes. -/
theorem exprSize_le_toksOf_length (e : Expr) (h : wfNames e = true) :
    exprSize e ≤ (toksOf e).length := by
  induction e with
  | Variable n =>
    obtain ⟨c, hn, _⟩ := (isOneGoodChar_iff n).mp (by simpa [wfNames] using h)
    simp [exprSize, toksOf, hn]
  | Abstraction p b ih =>
    simp only [wfNames, Bool.and_eq_true] at h
    simp only [exprSize, toksOf, List.length_cons, List.length_append]
    have := ih h.2
    omega
  | Application f a ihf iha =>
    simp only [wfNames, Bool.and_eq_true] at h
    simp only [exprSize, toksOf, List.length_cons, List.length_append]
    have h1 := ihf h.1
    have h2 := iha h.2
    simp only [List.length_cons, List.length_nil]
    omega

/-- C10 amended: for every accepted input whose parse tree has no
`Abstraction` directly under an `Application`, the rendering is
syntactically valid input — it tokenizes to the tree's token sequence —
and re-parses to a structurally identical tree. -/
theorem C10_roundtrip_on_fragment (s : List Char) (ts : List Token) (e : Expr)
    (h1 : tokenize s = Except.ok ts) (h2 : parse ts = Except.ok e)
    (h3 : noLambdaUnderApp e = true) :
    tokenize (Expr.toString e).data = Except.ok (toksOf e ++ [Token.END])
    ∧ parse (toksOf e ++ [Token.END]) = Except.ok e := by
  have hts := tokensWF_of_tokenize s ts h1
  obtain ⟨r, hpe⟩ : ∃ r, parseExpression (5 * ts.length + 5) ts = Except.ok (e, r) := by
    unfold parse at h2
    rcases hpe : parseExpression (5 * ts.length + 5) ts with pr | err
    · rw [hpe] at h2; cases h2
    · rw [hpe] at h2
      obtain ⟨e1, r1⟩ := err
      dsimp only at h2
      injection h2 with h2
      subst h2
      exact ⟨r1, rfl⟩
  have hwf : wfNames e = true := ((parser_wf (5 * ts.length + 5)).1 ts e r hts hpe).1
  constructor
  · rw [data_toString]
    have hch := tokenize_charsOf e hwf []
    simpa [consAllToks] using hch
  · unfold parse
    have hlen : exprSize e ≤ (toksOf e).length := exprSize_le_toksOf_length e hwf
    rw [parseExpression_toksOf e hwf h3 [Token.END]
      (by intro t r' h; cases h; rfl) (5 * (toksOf e ++ [Token.END]).length + 5)
      (by simp [List.length_append]; omega)]

/-- Witness for the amended C10 at the accepted input `λx.x`. -/
theorem C10_witness :
    tokenize "λx.x".data =
      Except.ok [Token.LAMBDA, Token.VARIABLE 'x', Token.DOT, Token.VARIABLE 'x', Token.END]
    ∧ noLambdaUnderApp (Expr.Abstraction "x" (Expr.Variable "x")) = true
    ∧ (tokenize (Expr.toString (Expr.Abstraction "x" (Expr.Variable "x"))).data
        = Except.ok (toksOf (Expr.Abstraction "x" (Expr.Variable "x")) ++ [Token.END])
      ∧ parse (toksOf (Expr.Abstraction "x" (Expr.Variable "x")) ++ [Token.END])
        = Except.ok (Expr.Abstraction "x" (Expr.Variable "x"))) :=
  ⟨rfl, rfl, C10_roundtrip_on_fragment "λx.x".data
    [Token.LAMBDA, Token.VARIABLE 'x', Token.DOT, Token.VARIABLE 'x', Token.END]
    (Expr.Abstraction "x" (Expr.Variable "x")) rfl rfl rfl⟩

/-- C10 counterexample: the rendering omits parentheses around
abstractions, so the round trip fails on accepted inputs.  `a (λx.x)` is
accepted but renders to `(a λx.x)`, which is not valid input (the
application loop stops at `λ` and the closing-parenthesis check fails);
`((λx.x) y)` is accepted but renders to `(λx.x y)`, which re-parses to the
structurally different tree `λx.(x y)` (the abstraction body swallows the
argument). -/
theorem C10_counterexample_render_breaks_roundtrip :
    parseInput "a (λx.x)"
      = Except.ok (Expr.Application (Expr.Variable "a")
          (Expr.Abstraction "x" (Expr.Variable "x")))
    ∧ Expr.toString (Expr.Application (Expr.Variable "a")
          (Expr.Abstraction "x" (Expr.Variable "x"))) = "(a λx.x)"
    ∧ parseInput "(a λx.x)" = Except.error "Expected closing parenthesis"
    ∧ parseInput "((λx.x) y)"
      = Except.ok (Expr.Application (Expr.Abstraction "x" (Expr.Variable "x"))
          (Expr.Variable "y"))
    ∧ Expr.toString (Expr.Application (Expr.Abstraction "x" (Expr.Variable "x"))
          (Expr.Variable "y")) = "(λx.x y)"
    ∧ parseInput "(λx.x y)"
      = Except.ok (Expr.Abstraction "x"
          (Expr.Application (Expr.Variable "x") (Expr.Variable "y")))
    ∧ Expr.Abstraction "x" (Expr.Application (Expr.Variable "x") (Expr.Variable "y"))
      ≠ Expr.Application (Expr.Abstraction "x" (Expr.Variable "x")) (Expr.Variable "y") :=
  ⟨rfl, rfl, rfl, rfl, rfl, rfl, by decide⟩
